import Mathlib

/-!
Shallow embedding of the blockchain mining simulator (`src/app.js`).

The browser built-ins used by the source are modelled as parameters:
`crypto.subtle.digest('SHA-256', ·)` rendered to lowercase hex becomes an
abstract `digest : String → String`, and `JSON.stringify` on a transaction
array becomes an abstract `stringify : List Transaction → String`.
`Date.now()` values and randomly generated transaction ids / wallet
addresses are passed in explicitly.  JavaScript numbers used as money are
modelled as rationals, nonces and timestamps as naturals.

Mutable state of the `BlockchainSimulator` class is carried in `SimState`
and threaded explicitly.  The cooperative `while (this.isMining)` mining
loop is modelled with a fuel argument: each loop iteration consumes one
unit of fuel, and running out of fuel corresponds to the operator having
cleared `isMining` (cooperative cancellation); the loop then returns
`none`, exactly as the JS loop falls through to `return null`.
-/

namespace BlockchainSim

/-- JS `class Transaction` (src/app.js:722-734).  The JS fields are
`id`, `from`, `to`, `amount`, `timestamp`; `from` is a Lean keyword so the
two address fields are called `fromAddr` / `toAddr` here. -/
structure Transaction where
  id : String
  fromAddr : String
  toAddr : String
  amount : ℚ
  timestamp : Nat
deriving DecidableEq

/-- JS `class Wallet` (src/app.js:737-744). -/
structure Wallet where
  address : String
  label : String
  balance : ℚ
  createdAt : Nat
deriving DecidableEq

/-- JS `class Block` (src/app.js:709-719).  `previousHash` is copied verbatim
from the predecessor's `hash` field by `addBlock`, and `hash` is `null`
until assigned, so both are `Option String` (`none` = JS `null`).  The
constructor (`mkBlock` below) sets `nonce = 0` and `hash = null`. -/
structure Block where
  index : Nat
  timestamp : Nat
  data : String
  previousHash : Option String
  transactions : List Transaction
  nonce : Nat
  hash : Option String
deriving DecidableEq

/-- The JS `Block` constructor: `nonce` starts at 0 and `hash` at `null`. -/
def mkBlock (index timestamp : Nat) (data : String) (previousHash : Option String)
    (transactions : List Transaction) : Block :=
  ⟨index, timestamp, data, previousHash, transactions, 0, none⟩

/-- The mutable fields of `BlockchainSimulator` that the core operations
touch (src/app.js:3-13).  `wallets` is a JS `Map`, which preserves
insertion order, so it is an ordered association list.  The UI-only
counters (`hashRate`, `blocksMined`, `currentNonce`) are omitted; the
`isMining` flag is modelled by the fuel of the mining loop. -/
structure SimState where
  blockchain : List Block
  transactionPool : List Transaction
  wallets : List (String × Wallet)
  difficulty : Nat
  miningReward : ℚ
deriving DecidableEq

/-- JS `"0".repeat(d)` — the mining target string. -/
def zeros (d : Nat) : String :=
  String.mk (List.replicate d '0')

/-- JS `s.startsWith(pre)`: character-level textual check. -/
def strStartsWith (s pre : String) : Bool :=
  pre.data.isPrefixOf s.data

/-- JS `b.hash.startsWith(target)` on a possibly-`null` hash.  Every block the
simulator ever appends to the chain carries a string hash (the genesis is
assigned one before the push and `addBlock` only pushes mined blocks), so
the `none` branch is unreachable on appended blocks; it is rendered as
`false` here. -/
def optStartsWith : Option String → String → Bool
  | some h, pre => strStartsWith h pre
  | none, _ => false

/-- JS template-literal rendering of a possibly-`null` string:
`null` interpolates as the four characters `"null"`. -/
def showJs : Option String → String
  | some s => s
  | none => "null"

section Core

variable (digest : String → String) (stringify : List Transaction → String)

/-- Function `calculateHash` (src/app.js:47-54): the digest of the canonical
serialization
`${block.index}${block.timestamp}${JSON.stringify(block.transactions)}${block.previousHash}${block.nonce}`.
Note that neither `data` nor `hash` enters the serialization. -/
def calculateHash (b : Block) : String :=
  digest (toString b.index ++ toString b.timestamp ++ stringify b.transactions
    ++ showJs b.previousHash ++ toString b.nonce)

/-- The body of the `while (this.isMining)` loop of `mineBlock`
(src/app.js:61-81): set `block.nonce` to the current counter, hash, and
either seal or increment the counter and retry.  One unit of fuel per
iteration; exhausted fuel models `isMining` having been cleared, upon
which the JS function returns `null`. -/
def mineLoop (d : Nat) (b : Block) : Nat → Nat → Option Block
  | _, 0 => none
  | nonce, fuel + 1 =>
    let b' := { b with nonce := nonce }
    let h := calculateHash digest stringify b'
    if strStartsWith h (zeros d) then
      some { b' with hash := some h }
    else
      mineLoop d b (nonce + 1) fuel

/-- Function `mineBlock` (src/app.js:56-84): the nonce search starts at 0. -/
def mineBlock (d : Nat) (b : Block) (fuel : Nat) : Option Block :=
  mineLoop digest stringify d b 0 fuel

/-- Function `createGenesisBlock` (src/app.js:34-45): a block with index 0,
previous hash the sentinel string `"0"` and no transactions, whose hash is
assigned by a single `calculateHash` call — the mining loop is never run
on it and no difficulty condition is checked. -/
def createGenesisBlock (now : Nat) : Block :=
  let g := mkBlock 0 now "Genesis Block - The beginning of our blockchain" (some "0") []
  { g with hash := some (calculateHash digest stringify g) }

end Core

/-- First-match lookup in the wallet registry — JS `this.wallets.get(addr)`
(keys of a JS `Map` are unique, so first match is the match). -/
def findWallet (addr : String) : List (String × Wallet) → Option Wallet
  | [] => none
  | (k, w) :: rest => if k = addr then some w else findWallet addr rest

/-- In-place balance mutation of the wallet stored under `addr`
(`wallet.balance = f wallet.balance` on the object returned by
`wallets.get`); entries for other keys and the iteration order are
untouched. -/
def setBal (addr : String) (f : ℚ → ℚ) : List (String × Wallet) → List (String × Wallet)
  | [] => []
  | (k, w) :: rest =>
    if k = addr then (k, { w with balance := f w.balance }) :: rest
    else (k, w) :: setBal addr f rest

/-- One iteration of the `transactions.forEach` body of
`processTransactions` (src/app.js:124-143). -/
def applyTx (ws : List (String × Wallet)) (tx : Transaction) : List (String × Wallet) :=
  if tx.fromAddr = "System" then
    match findWallet tx.toAddr ws with
    | some _ => setBal tx.toAddr (· + tx.amount) ws
    | none => ws
  else
    match findWallet tx.fromAddr ws, findWallet tx.toAddr ws with
    | some fw, some _ =>
      if tx.amount ≤ fw.balance then
        setBal tx.toAddr (· + tx.amount) (setBal tx.fromAddr (· - tx.amount) ws)
      else ws
    | _, _ => ws

/-- Function `processTransactions` (src/app.js:124-143): fold the per-transaction
settlement over the batch in order. -/
def processTransactions (ws : List (String × Wallet)) (txs : List Transaction) :
    List (String × Wallet) :=
  txs.foldl applyTx ws

/-- Sum of all wallet balances in the registry. -/
def totalBalance : List (String × Wallet) → ℚ
  | [] => 0
  | (_, w) :: rest => w.balance + totalBalance rest

/-- Inner loop of `validateChain` (src/app.js:145-161), carrying the
previous block: at each step check the hash's difficulty target and the
`previousHash` link, returning `false` on the first failure. -/
def validateFrom (d : Nat) (prev : Block) : List Block → Bool
  | [] => true
  | b :: rest =>
    if ¬ optStartsWith b.hash (zeros d) then false
    else if b.previousHash ≠ prev.hash then false
    else validateFrom d b rest

/-- Function `validateChain` (src/app.js:145-161): the loop runs for `i ≥ 1`, so a
chain of 0 or 1 blocks is vacuously valid and the genesis block's own
fields are never inspected. -/
def validateChain (d : Nat) : List Block → Bool
  | [] => true
  | b :: rest => validateFrom d b rest

/-- The three `throw new Error(...)` cases of `addTransaction`
(src/app.js:199-221): `'Invalid wallet address'`, `'Insufficient balance'`
and `'Amount must be positive'`, under the names the spec gives them. -/
inductive JsError where
  | UnknownWallet
  | InsufficientBalance
  | InvalidAmount
deriving DecidableEq

/-- Function `addTransaction` (src/app.js:199-221).  The checks run in source
order: wallet existence, then `fromWallet.balance < amount`, then
`amount <= 0`.  A throw leaves the state untouched (the pool push is the
only mutation and it happens after all checks); on success the freshly
built transaction is pushed onto the pool's tail and returned. -/
def addTransaction (s : SimState) (fromA toA : String) (amount : ℚ) (id : String)
    (now : Nat) : Except JsError Transaction × SimState :=
  match findWallet fromA s.wallets, findWallet toA s.wallets with
  | some fw, some _ =>
    if fw.balance < amount then (.error .InsufficientBalance, s)
    else if amount ≤ 0 then (.error .InvalidAmount, s)
    else
      let tx : Transaction := ⟨id, fromA, toA, amount, now⟩
      (.ok tx, { s with transactionPool := s.transactionPool ++ [tx] })
  | _, _ => (.error .UnknownWallet, s)

/-- JS `Map.prototype.set`: replace in place if the key exists, otherwise
append in insertion order. -/
def mapSet (k : String) (v : Wallet) : List (String × Wallet) → List (String × Wallet)
  | [] => [(k, v)]
  | (k', w) :: rest => if k' = k then (k, v) :: rest else (k', w) :: mapSet k v rest

/-- Function `createWallet` (src/app.js:177-189) with the generated address, the
resolved label and `Date.now()` passed in. -/
def createWallet (s : SimState) (address label : String) (initialBalance : ℚ)
    (now : Nat) : SimState × Wallet :=
  let w : Wallet := ⟨address, label, initialBalance, now⟩
  ({ s with wallets := mapSet address w s.wallets }, w)

/-- JS `Array.from(this.wallets.keys())[0]` (src/app.js:96): the first wallet
address in registry insertion order; `undefined` if the registry is empty
(rendered as the string JS coerces it to — never hit with a non-empty
registry). -/
def minerAddress (s : SimState) : String :=
  ((s.wallets.head?).map Prod.fst).getD "undefined"

/-- Function `addBlock` (src/app.js:86-122).  On an empty chain, create and push
the genesis block and return (`undefined`, i.e. `none`).  Otherwise drain
up to 10 pool transactions (`splice(0, 10)` — this happens before mining,
so the drained transactions are gone even if mining is cancelled),
prepend the reward transaction, build the candidate block, and mine it;
on success push it, settle its batch, and return it, otherwise return
`none` with the chain and wallets untouched. -/
def addBlock (digest : String → String) (stringify : List Transaction → String)
    (s : SimState) (now : Nat) (rewardId : String) (fuel : Nat) :
    SimState × Option Block :=
  match s.blockchain.getLast? with
  | none =>
    ({ s with blockchain := [createGenesisBlock digest stringify now] }, none)
  | some previousBlock =>
    let drained := s.transactionPool.take 10
    let poolRest := s.transactionPool.drop 10
    let rewardTransaction : Transaction :=
      ⟨rewardId, "System", minerAddress s, s.miningReward, now⟩
    let batch := rewardTransaction :: drained
    let newBlock := mkBlock (previousBlock.index + 1) now
      ("Block " ++ toString (previousBlock.index + 1)) previousBlock.hash batch
    match mineBlock digest stringify s.difficulty newBlock fuel with
    | some minedBlock =>
      ({ s with
          blockchain := s.blockchain ++ [minedBlock],
          transactionPool := poolRest,
          wallets := processTransactions s.wallets batch },
        some minedBlock)
    | none => ({ s with transactionPool := poolRest }, none)

/-- The per-pair condition `validateChain` enforces on consecutive blocks
`(a, b)`: `b`'s hash meets the difficulty target and `b` links to `a`. -/
def linkOk (d : Nat) (a b : Block) : Prop :=
  optStartsWith b.hash (zeros d) = true ∧ b.previousHash = a.hash

instance (d : Nat) (a b : Block) : Decidable (linkOk d a b) := by
  unfold linkOk; infer_instance

/-- Every wallet in the registry carries a non-negative balance. -/
def NonNegBalances (ws : List (String × Wallet)) : Prop :=
  ∀ p ∈ ws, 0 ≤ (p.2 : Wallet).balance

instance (ws : List (String × Wallet)) : Decidable (NonNegBalances ws) := by
  unfold NonNegBalances; infer_instance

/-- The state invariant the running simulator maintains: non-negative
balances, non-negative pending amounts (pool admission only ever admits
positive ones) and a non-negative mining reward (the source fixes it
at 10 and never writes it). -/
def Inv (s : SimState) : Prop :=
  NonNegBalances s.wallets ∧ (∀ tx ∈ s.transactionPool, 0 ≤ tx.amount) ∧
    0 ≤ s.miningReward

instance (s : SimState) : Decidable (Inv s) := by
  unfold Inv; infer_instance

/-! Concrete instances used for closed evaluations.

A hasher that always answers `"0000"` (so any difficulty up to 4 is met
on the first nonce), a hasher that always answers `"abc"` (so no
positive difficulty is ever met), and small concrete states. -/

def dgHit : String → String := fun _ => "0000"
def dgMiss : String → String := fun _ => "abc"
def stJson : List Transaction → String := fun _ => "[]"

def blkW1 : Block := mkBlock 1 5 "Block 1" (some "0") []
def minedW1 : Block := { blkW1 with nonce := 0, hash := some "0000" }

/-- The simulator's initial state before any wallet is created:
difficulty 3 and mining reward 10 (src/app.js:4-8). -/
def emptyState : SimState := ⟨[], [], [], 3, 10⟩

/-- The genesis block produced with the always-`"abc"` hasher. -/
def gMiss : Block := createGenesisBlock dgMiss stJson 0

/-- Block `gMiss` with its `previousHash` mutated away from the sentinel `"0"`. -/
def gMissMut : Block := { gMiss with previousHash := some "1" }

def wA : Wallet := ⟨"a", "Alice", 100, 0⟩
def wB : Wallet := ⟨"b", "Bob", 0, 0⟩
def regAB : List (String × Wallet) := [("a", wA), ("b", wB)]
def txAB : Transaction := ⟨"p1", "a", "b", 30, 0⟩

/-- A state with one (genesis) block, one pending transaction and two
wallets, at difficulty 0 so that mining succeeds on the first nonce. -/
def stateAB : SimState := ⟨[gMiss], [txAB], regAB, 0, 10⟩

/-- The same state at difficulty 3, where the always-`"abc"` hasher can
never seal a block. -/
def stateABHard : SimState := ⟨[gMiss], [txAB], regAB, 3, 10⟩

/-- The block `addBlock` produces from `stateAB` with the always-`"abc"`
hasher at difficulty 0: reward to the first wallet `"a"`, then the one
pooled transaction. -/
def minedAB : Block :=
  { mkBlock 1 7 "Block 1" (some "abc") [⟨"r", "System", "a", 10, 7⟩, txAB] with
      hash := some "abc" }

/-- A coinbase (mining reward) transaction crediting Bob. -/
def txReward : Transaction := ⟨"r", "System", "b", 10, 0⟩

def wSelf : Wallet := ⟨"a", "A", 5, 0⟩
def regSelf : List (String × Wallet) := [("a", wSelf)]

/-- A state holding only the wallet `"a"` with balance 5. -/
def stateSelf : SimState := ⟨[], [], regSelf, 3, 10⟩
/-- A self-transfer: sender and recipient are the same wallet. -/
def txSelf : Transaction := ⟨"t", "a", "a", 3, 0⟩

/-- A registry whose only wallet has a negative balance (reachable via
`createWallet` with a negative initial balance). -/
def regNeg : List (String × Wallet) := [("a", ⟨"a", "A", -5, 0⟩), ("b", ⟨"b", "B", 1, 0⟩)]
def stateNeg : SimState := ⟨[], [], regNeg, 3, 10⟩

/-! Registry lemmas. -/

theorem findWallet_mem {k : String} {w : Wallet} :
    ∀ {ws : List (String × Wallet)}, findWallet k ws = some w → (k, w) ∈ ws := by
  intro ws
  induction ws with
  | nil => intro h; simp [findWallet] at h
  | cons p rest ih =>
    intro h
    obtain ⟨k', w'⟩ := p
    by_cases hk : k' = k
    · subst hk
      simp [findWallet] at h
      subst h
      exact List.mem_cons_self _ _
    · simp only [findWallet, if_neg hk] at h
      exact List.mem_cons_of_mem _ (ih h)

theorem findWallet_setBal_self (k : String) (f : ℚ → ℚ) :
    ∀ ws, findWallet k (setBal k f ws) =
      (findWallet k ws).map (fun w => { w with balance := f w.balance }) := by
  intro ws
  induction ws with
  | nil => simp [findWallet, setBal]
  | cons p rest ih =>
    obtain ⟨k', w'⟩ := p
    by_cases hk : k' = k
    · subst hk; simp [findWallet, setBal]
    · simp [findWallet, setBal, hk, ih]

theorem findWallet_setBal_ne {k' k : String} (h : k' ≠ k) (f : ℚ → ℚ) :
    ∀ ws, findWallet k' (setBal k f ws) = findWallet k' ws := by
  intro ws
  induction ws with
  | nil => simp [setBal]
  | cons p rest ih =>
    obtain ⟨e, w'⟩ := p
    by_cases he : e = k
    · subst he
      simp [findWallet, setBal, Ne.symm h]
    · by_cases he' : e = k'
      · subst he'; simp [findWallet, setBal, he]
      · simp [findWallet, setBal, he, he', ih]

theorem isSome_findWallet_setBal (k' k : String) (f : ℚ → ℚ) (ws : List (String × Wallet)) :
    (findWallet k' (setBal k f ws)).isSome = (findWallet k' ws).isSome := by
  by_cases h : k' = k
  · subst h; rw [findWallet_setBal_self]; cases findWallet k' ws <;> simp
  · rw [findWallet_setBal_ne h]

theorem setBal_setBal_self (k : String) (f g : ℚ → ℚ) :
    ∀ ws, setBal k f (setBal k g ws) = setBal k (fun x => f (g x)) ws := by
  intro ws
  induction ws with
  | nil => simp [setBal]
  | cons p rest ih =>
    obtain ⟨e, w'⟩ := p
    by_cases he : e = k
    · subst he; simp [setBal]
    · simp [setBal, he, ih]

theorem setBal_eq_self {f : ℚ → ℚ} (hf : ∀ x, f x = x) (k : String) :
    ∀ ws, setBal k f ws = ws := by
  intro ws
  induction ws with
  | nil => rfl
  | cons p rest ih =>
    obtain ⟨e, w'⟩ := p
    by_cases he : e = k
    · subst he
      obtain ⟨a, l, b, c⟩ := w'
      simp [setBal, hf, ih]
    · simp [setBal, he, ih]

theorem totalBalance_setBal {k : String} (f : ℚ → ℚ) :
    ∀ {ws : List (String × Wallet)} {w : Wallet}, findWallet k ws = some w →
      totalBalance (setBal k f ws) = totalBalance ws - w.balance + f w.balance := by
  intro ws
  induction ws with
  | nil => intro w h; simp [findWallet] at h
  | cons p rest ih =>
    intro w h
    obtain ⟨e, w'⟩ := p
    by_cases he : e = k
    · subst he
      simp [findWallet] at h
      subst h
      simp [setBal, totalBalance]
      ring
    · simp only [findWallet, if_neg he] at h
      simp only [setBal, if_neg he, totalBalance, ih h]
      ring

theorem mem_mapSet {p : String × Wallet} {k : String} {v : Wallet} :
    ∀ {ws : List (String × Wallet)}, p ∈ mapSet k v ws → p = (k, v) ∨ p ∈ ws := by
  intro ws
  induction ws with
  | nil => intro h; simp [mapSet] at h; exact Or.inl h
  | cons q rest ih =>
    intro h
    obtain ⟨e, w'⟩ := q
    by_cases he : e = k
    · subst he
      simp only [mapSet, if_true, eq_self_iff_true, if_pos, List.mem_cons] at h
      rcases h with h | h
      · exact Or.inl h
      · exact Or.inr (List.mem_cons_of_mem _ h)
    · simp only [mapSet, if_neg he, List.mem_cons] at h
      rcases h with h | h
      · exact Or.inr (h ▸ List.mem_cons_self _ _)
      · rcases ih h with h' | h'
        · exact Or.inl h'
        · exact Or.inr (List.mem_cons_of_mem _ h')

/-! Settlement lemmas. -/

theorem nonNeg_setBal {k : String} {f : ℚ → ℚ} :
    ∀ {ws : List (String × Wallet)}, NonNegBalances ws →
      (∀ w, findWallet k ws = some w → 0 ≤ f w.balance) →
      NonNegBalances (setBal k f ws) := by
  intro ws
  induction ws with
  | nil => intro _ _; intro p hp; simp [setBal] at hp
  | cons p rest ih =>
    intro h hf
    obtain ⟨e, w'⟩ := p
    by_cases he : e = k
    · subst he
      intro q hq
      have hq' : q = (e, { w' with balance := f w'.balance }) ∨ q ∈ rest := by
        simpa [setBal] using hq
      rcases hq' with hq' | hq'
      · subst hq'
        exact hf w' (by simp [findWallet])
      · exact h q (List.mem_cons_of_mem _ hq')
    · intro q hq
      have hq' : q = (e, w') ∨ q ∈ setBal k f rest := by
        simpa [setBal, he] using hq
      rcases hq' with hq' | hq'
      · subst hq'
        exact h _ (List.mem_cons_self _ _)
      · refine ih (fun r hr => h r (List.mem_cons_of_mem _ hr)) ?_ q hq'
        intro w hw
        exact hf w (by simpa [findWallet, he] using hw)

theorem nonNeg_applyTx {ws : List (String × Wallet)} {tx : Transaction}
    (h : NonNegBalances ws) (ha : 0 ≤ tx.amount) :
    NonNegBalances (applyTx ws tx) := by
  by_cases hsys : tx.fromAddr = "System"
  · cases hto : findWallet tx.toAddr ws with
    | none => simpa [applyTx, hsys, hto] using h
    | some tw =>
      have heq : applyTx ws tx = setBal tx.toAddr (· + tx.amount) ws := by
        simp [applyTx, hsys, hto]
      rw [heq]
      refine nonNeg_setBal h ?_
      intro w hw
      rw [hto] at hw
      cases hw
      have := h _ (findWallet_mem hto)
      linarith
  · cases hf : findWallet tx.fromAddr ws with
    | none => simpa [applyTx, hsys, hf] using h
    | some fw =>
      cases ht : findWallet tx.toAddr ws with
      | none => simpa [applyTx, hsys, hf, ht] using h
      | some tw =>
        by_cases hbal : tx.amount ≤ fw.balance
        · have heq : applyTx ws tx =
              setBal tx.toAddr (· + tx.amount) (setBal tx.fromAddr (· - tx.amount) ws) := by
            simp [applyTx, hsys, hf, ht, hbal]
          rw [heq]
          have hdeb : NonNegBalances (setBal tx.fromAddr (· - tx.amount) ws) := by
            refine nonNeg_setBal h ?_
            intro w hw
            rw [hf] at hw
            cases hw
            simpa using hbal
          refine nonNeg_setBal hdeb ?_
          intro w hw
          have := hdeb _ (findWallet_mem hw)
          simp only at this
          linarith
        · simpa [applyTx, hsys, hf, ht, hbal] using h

theorem nonNeg_processTransactions :
    ∀ (txs : List Transaction) (ws : List (String × Wallet)), NonNegBalances ws →
      (∀ tx ∈ txs, 0 ≤ tx.amount) → NonNegBalances (processTransactions ws txs) := by
  intro txs
  induction txs with
  | nil => intro ws h _; exact h
  | cons t ts ih =>
    intro ws h hts
    simp only [processTransactions, List.foldl_cons]
    exact ih (applyTx ws t) (nonNeg_applyTx h (hts t (List.mem_cons_self _ _)))
      (fun tx htx => hts tx (List.mem_cons_of_mem _ htx))

theorem totalBalance_applyTx_of_ne_system {ws : List (String × Wallet)}
    {tx : Transaction} (h : tx.fromAddr ≠ "System") :
    totalBalance (applyTx ws tx) = totalBalance ws := by
  cases hf : findWallet tx.fromAddr ws with
  | none => simp [applyTx, h, hf]
  | some fw =>
    cases ht : findWallet tx.toAddr ws with
    | none => simp [applyTx, h, hf, ht]
    | some tw =>
      by_cases hbal : tx.amount ≤ fw.balance
      · have heq : applyTx ws tx =
            setBal tx.toAddr (· + tx.amount) (setBal tx.fromAddr (· - tx.amount) ws) := by
          simp [applyTx, h, hf, ht, hbal]
        rw [heq]
        obtain ⟨tw', htw'⟩ :
            ∃ w, findWallet tx.toAddr (setBal tx.fromAddr (· - tx.amount) ws) = some w := by
          by_cases hft : tx.toAddr = tx.fromAddr
          · rw [hft, findWallet_setBal_self, hf]
            exact ⟨_, rfl⟩
          · rw [findWallet_setBal_ne hft]
            exact ⟨tw, ht⟩
        rw [totalBalance_setBal _ htw', totalBalance_setBal _ hf]
        ring
      · simp [applyTx, h, hf, ht, hbal]

theorem totalBalance_applyTx_system {ws : List (String × Wallet)} {tx : Transaction}
    {tw : Wallet} (h : tx.fromAddr = "System") (hto : findWallet tx.toAddr ws = some tw) :
    totalBalance (applyTx ws tx) = totalBalance ws + tx.amount := by
  have heq : applyTx ws tx = setBal tx.toAddr (· + tx.amount) ws := by
    simp [applyTx, h, hto]
  rw [heq, totalBalance_setBal _ hto]
  ring

theorem totalBalance_processTransactions_of_ne_system :
    ∀ (txs : List Transaction) (ws : List (String × Wallet)),
      (∀ tx ∈ txs, tx.fromAddr ≠ "System") →
      totalBalance (processTransactions ws txs) = totalBalance ws := by
  intro txs
  induction txs with
  | nil => intro ws _; rfl
  | cons t ts ih =>
    intro ws hts
    have hstep : processTransactions ws (t :: ts) = processTransactions (applyTx ws t) ts := rfl
    rw [hstep, ih (applyTx ws t) (fun tx htx => hts tx (List.mem_cons_of_mem _ htx))]
    exact totalBalance_applyTx_of_ne_system (hts t (List.mem_cons_self _ _))

/-! Mining lemmas. -/

theorem mineLoop_sound (digest : String → String) (stringify : List Transaction → String)
    (d : Nat) (b : Block) :
    ∀ (fuel nonce : Nat) (b' : Block),
      mineLoop digest stringify d b nonce fuel = some b' →
      b'.index = b.index ∧ b'.timestamp = b.timestamp ∧ b'.data = b.data ∧
        b'.transactions = b.transactions ∧ b'.previousHash = b.previousHash ∧
        b'.hash = some (calculateHash digest stringify b') ∧
        strStartsWith (calculateHash digest stringify b') (zeros d) = true := by
  intro fuel
  induction fuel with
  | zero => intro nonce b' h; simp [mineLoop] at h
  | succ n ih =>
    intro nonce b' h
    simp only [mineLoop] at h
    split at h
    · rename_i hcond
      cases h
      exact ⟨rfl, rfl, rfl, rfl, rfl, rfl, hcond⟩
    · exact ih (nonce + 1) b' h

theorem mineBlock_sound {digest : String → String} {stringify : List Transaction → String}
    {d : Nat} {b : Block} {fuel : Nat} {b' : Block}
    (h : mineBlock digest stringify d b fuel = some b') :
    b'.index = b.index ∧ b'.timestamp = b.timestamp ∧ b'.data = b.data ∧
      b'.transactions = b.transactions ∧ b'.previousHash = b.previousHash ∧
      b'.hash = some (calculateHash digest stringify b') ∧
      strStartsWith (calculateHash digest stringify b') (zeros d) = true :=
  mineLoop_sound digest stringify d b fuel 0 b' h

/-! Chain-validation lemmas. -/

theorem validateFrom_iff (d : Nat) :
    ∀ (rest : List Block) (prev : Block),
      validateFrom d prev rest = true ↔ List.Chain (linkOk d) prev rest := by
  intro rest
  induction rest with
  | nil => intro prev; simp [validateFrom]
  | cons b bs ih =>
    intro prev
    rw [List.chain_cons, ← ih b]
    by_cases hc1 : optStartsWith b.hash (zeros d) = true
    · by_cases hc2 : b.previousHash = prev.hash
      · have hstep : validateFrom d prev (b :: bs) = validateFrom d b bs := by
          simp [validateFrom, hc1, hc2]
        rw [hstep]
        simp [linkOk, hc1, hc2]
      · have hstep : validateFrom d prev (b :: bs) = false := by
          simp [validateFrom, hc1, hc2]
        rw [hstep]
        simp [linkOk, hc2]
    · have hstep : validateFrom d prev (b :: bs) = false := by
        simp [validateFrom, hc1]
      rw [hstep]
      simp [linkOk, hc1]

theorem validateChain_iff_chain (d : Nat) (c : List Block) :
    validateChain d c = true ↔ List.Chain' (linkOk d) c := by
  cases c with
  | nil => simp [validateChain, List.Chain']
  | cons b rest =>
    show validateFrom d b rest = true ↔ List.Chain (linkOk d) b rest
    exact validateFrom_iff d rest b

/-- Unfolding of `addBlock` on a non-empty chain when mining succeeds: the
sealed block is appended, the drained batch is settled, the pool keeps its
remainder. -/
theorem addBlock_success {digest : String → String} {stringify : List Transaction → String}
    {s : SimState} {now : Nat} {rid : String} {fuel : Nat} {lb mb : Block}
    (hlast : s.blockchain.getLast? = some lb)
    (hm : mineBlock digest stringify s.difficulty
        (mkBlock (lb.index + 1) now ("Block " ++ toString (lb.index + 1)) lb.hash
          ((⟨rid, "System", minerAddress s, s.miningReward, now⟩ : Transaction) ::
            s.transactionPool.take 10)) fuel = some mb) :
    addBlock digest stringify s now rid fuel =
      ({ s with
          blockchain := s.blockchain ++ [mb],
          transactionPool := s.transactionPool.drop 10,
          wallets := processTransactions s.wallets
            ((⟨rid, "System", minerAddress s, s.miningReward, now⟩ : Transaction) ::
              s.transactionPool.take 10) },
        some mb) := by
  simp only [addBlock, hlast]
  rw [hm]

/-- Unfolding of `addBlock` on a non-empty chain when mining is cancelled:
only the pool drain remains. -/
theorem addBlock_failure {digest : String → String} {stringify : List Transaction → String}
    {s : SimState} {now : Nat} {rid : String} {fuel : Nat} {lb : Block}
    (hlast : s.blockchain.getLast? = some lb)
    (hm : mineBlock digest stringify s.difficulty
        (mkBlock (lb.index + 1) now ("Block " ++ toString (lb.index + 1)) lb.hash
          ((⟨rid, "System", minerAddress s, s.miningReward, now⟩ : Transaction) ::
            s.transactionPool.take 10)) fuel = none) :
    addBlock digest stringify s now rid fuel =
      ({ s with transactionPool := s.transactionPool.drop 10 }, none) := by
  simp only [addBlock, hlast]
  rw [hm]

/-! The claims. -/

/-- C1:  For every difficulty `d ≥ 0`, if the sealing (mining) loop returns
a sealed block, then the block's `hash` equals the hex digest of the canonical
serialization of (index, timestamp, transactions, previous hash, final nonce)
— i.e. `calculateHash` of the returned block, whose serialized fields other
than the nonce are those of the candidate — and that hex string starts with at
least `d` `'0'` characters. -/
theorem mineBlock_seals_with_leading_zeros (digest : String → String)
    (stringify : List Transaction → String) (d : Nat) (b : Block) (fuel : Nat)
    (b' : Block) (h : mineBlock digest stringify d b fuel = some b') :
    b'.hash = some (calculateHash digest stringify b') ∧
    strStartsWith (calculateHash digest stringify b') (zeros d) = true ∧
    b'.index = b.index ∧ b'.timestamp = b.timestamp ∧
    b'.transactions = b.transactions ∧ b'.previousHash = b.previousHash := by
  obtain ⟨h1, h2, _, h4, h5, h6, h7⟩ := mineBlock_sound h
  exact ⟨h6, h7, h1, h2, h4, h5⟩

/-- Witness for C1 at a concrete input: a hasher that answers `"0000"`
seals on the first nonce at difficulty 3. -/
theorem mineBlock_seals_with_leading_zeros_witness :
    mineBlock dgHit stJson 3 blkW1 1 = some minedW1 ∧
    (minedW1.hash = some (calculateHash dgHit stJson minedW1) ∧
     strStartsWith (calculateHash dgHit stJson minedW1) (zeros 3) = true ∧
     minedW1.index = blkW1.index ∧ minedW1.timestamp = blkW1.timestamp ∧
     minedW1.transactions = blkW1.transactions ∧
     minedW1.previousHash = blkW1.previousHash) :=
  ⟨by decide,
   mineBlock_seals_with_leading_zeros dgHit stJson 3 blkW1 1 minedW1 (by decide)⟩

/-- C6 counterexample:  Block production on the empty chain (at the default
difficulty 3) appends a genesis block with index 0 and previous hash `"0"`,
but its hash is a single unconstrained `calculateHash` call: with a hasher
whose digests start with `'a'`, the appended genesis hash fails the current
difficulty's leading-zero requirement, so the genesis block is *not* sealed
via the sealing algorithm. -/
theorem genesis_unsealed_counterexample :
    (addBlock dgMiss stJson emptyState 0 "r" 9).1.blockchain = [gMiss] ∧
    gMiss.index = 0 ∧ gMiss.previousHash = some "0" ∧ gMiss.transactions = [] ∧
    emptyState.difficulty = 3 ∧
    optStartsWith gMiss.hash (zeros emptyState.difficulty) = false := by
  decide

/-- C6 (amended):  The genesis block appended to an empty chain has index
0, previous hash `"0"`, an empty transaction set and nonce 0, and its hash is
assigned as the digest of its canonical serialization directly — the sealing
loop is not run on it and no difficulty requirement is imposed. -/
theorem genesis_spec (digest : String → String) (stringify : List Transaction → String)
    (s : SimState) (now : Nat) (rid : String) (fuel : Nat) (h : s.blockchain = []) :
    (createGenesisBlock digest stringify now).index = 0 ∧
    (createGenesisBlock digest stringify now).previousHash = some "0" ∧
    (createGenesisBlock digest stringify now).transactions = [] ∧
    (createGenesisBlock digest stringify now).nonce = 0 ∧
    (createGenesisBlock digest stringify now).hash =
      some (calculateHash digest stringify (createGenesisBlock digest stringify now)) ∧
    addBlock digest stringify s now rid fuel =
      ({ s with blockchain := [createGenesisBlock digest stringify now] }, none) := by
  refine ⟨rfl, rfl, rfl, rfl, rfl, ?_⟩
  have hl : s.blockchain.getLast? = none := by rw [h]; rfl
  simp [addBlock, hl]

/-- Witness for C6 (amended) on the concrete empty initial state. -/
theorem genesis_spec_witness :
    emptyState.blockchain = [] ∧
    addBlock dgMiss stJson emptyState 0 "r" 9 =
      ({ emptyState with blockchain := [createGenesisBlock dgMiss stJson 0] }, none) :=
  ⟨rfl, (genesis_spec dgMiss stJson emptyState 0 "r" 9 rfl).2.2.2.2.2⟩

/-- C2 counterexample:  A chain built purely by sequential block production
(here: the single genesis block) whose block-0 `previous_hash` is mutated to a
different value post-hoc is still reported valid — `validateChain`'s loop
starts at index 1 and never inspects the genesis block's `previous_hash`. -/
theorem validateChain_misses_genesis_mutation :
    (addBlock dgMiss stJson emptyState 0 "r" 9).1.blockchain = [gMiss] ∧
    gMissMut = { gMiss with previousHash := some "1" } ∧
    gMissMut.previousHash ≠ gMiss.previousHash ∧
    validateChain emptyState.difficulty [gMissMut] = true := by
  decide

/-- C2 (amended):  `validateChain` returns true iff for every consecutive
pair of blocks `(i, i+1)` the later block's hash starts with the current
difficulty's number of `'0'` characters and its `previous_hash` equals the
earlier block's hash; it returns true for chains of 0 or 1 blocks, and false
whenever some block at position `i ≥ 1` has its `previous_hash` differing
from its predecessor's hash (in particular after a post-hoc mutation of any
non-genesis block's `previous_hash`; a mutation of the genesis block's
`previous_hash` is not detected).  It is a pure function of the chain. -/
theorem validateChain_spec (d : Nat) (c : List Block) :
    (validateChain d c = true ↔
      ∀ (i : Nat) (hi : i < c.length - 1),
        optStartsWith (c.get ⟨i + 1, by omega⟩).hash (zeros d) = true ∧
        (c.get ⟨i + 1, by omega⟩).previousHash = (c.get ⟨i, by omega⟩).hash) ∧
    (c.length ≤ 1 → validateChain d c = true) ∧
    (∀ (i : Nat) (hi : i < c.length - 1),
      (c.get ⟨i + 1, by omega⟩).previousHash ≠ (c.get ⟨i, by omega⟩).hash →
      validateChain d c = false) := by
  have hiff := (validateChain_iff_chain d c).trans List.chain'_iff_get
  refine ⟨hiff, ?_, ?_⟩
  · intro hlen
    rcases c with _ | ⟨b1, rest1⟩
    · rfl
    rcases rest1 with _ | ⟨b2, rest2⟩
    · rfl
    · simp at hlen
  · intro i hi hne
    cases hv : validateChain d c with
    | false => rfl
    | true => exact absurd ((hiff.mp hv i hi).2) hne

/-- Witness for C2 (amended): a one-block chain is valid. -/
theorem validateChain_spec_witness :
    ([gMissMut] : List Block).length ≤ 1 ∧ validateChain 3 [gMissMut] = true :=
  ⟨by decide, (validateChain_spec 3 [gMissMut]).2.1 (by decide)⟩

/-- C5:  Block production on a non-empty chain constructs a block with
index `last.index + 1` and `previous_hash = last.hash`, whose transaction
batch is a synthesized reward transaction (from `"System"` to the first
wallet in registry iteration order, amount = the mining reward) followed by
up to 10 transactions removed from the head of the pool in order; removing
more transactions than are present yields all available transactions without
error. -/
theorem addBlock_construction_spec (digest : String → String)
    (stringify : List Transaction → String) (s : SimState) (now : Nat) (rid : String)
    (fuel : Nat) (lb : Block) (hlast : s.blockchain.getLast? = some lb)
    (a0 : String) (w0 : Wallet) (rest : List (String × Wallet))
    (hw : s.wallets = (a0, w0) :: rest) (b : Block)
    (hmined : (addBlock digest stringify s now rid fuel).2 = some b) :
    b.index = lb.index + 1 ∧
    b.previousHash = lb.hash ∧
    b.transactions =
      (⟨rid, "System", a0, s.miningReward, now⟩ : Transaction) ::
        s.transactionPool.take 10 ∧
    (addBlock digest stringify s now rid fuel).1.transactionPool =
      s.transactionPool.drop 10 ∧
    (s.transactionPool.length ≤ 10 →
      b.transactions =
        (⟨rid, "System", a0, s.miningReward, now⟩ : Transaction) :: s.transactionPool) := by
  have hminer : minerAddress s = a0 := by simp [minerAddress, hw]
  cases hm : mineBlock digest stringify s.difficulty
      (mkBlock (lb.index + 1) now ("Block " ++ toString (lb.index + 1)) lb.hash
        ((⟨rid, "System", minerAddress s, s.miningReward, now⟩ : Transaction) ::
          s.transactionPool.take 10)) fuel with
  | none =>
    rw [addBlock_failure hlast hm] at hmined
    simp at hmined
  | some mb =>
    rw [addBlock_success hlast hm] at hmined
    simp at hmined
    subst hmined
    obtain ⟨h1, _, _, h4, h5, _, _⟩ := mineBlock_sound hm
    refine ⟨by simp [h1, mkBlock], by simp [h5, mkBlock],
      by simp [h4, mkBlock, hminer], ?_, ?_⟩
    · rw [addBlock_success hlast hm]
    · intro hlen
      simp [h4, mkBlock, hminer, List.take_of_length_le hlen]

/-- Witness for C5: a concrete successful production at difficulty 0. -/
theorem addBlock_construction_spec_witness :
    stateAB.blockchain.getLast? = some gMiss ∧
    stateAB.wallets = ("a", wA) :: [("b", wB)] ∧
    (addBlock dgMiss stJson stateAB 7 "r" 1).2 = some minedAB ∧
    (minedAB.index = gMiss.index + 1 ∧
     minedAB.previousHash = gMiss.hash ∧
     minedAB.transactions =
       (⟨"r", "System", "a", stateAB.miningReward, 7⟩ : Transaction) ::
         stateAB.transactionPool.take 10 ∧
     (addBlock dgMiss stJson stateAB 7 "r" 1).1.transactionPool =
       stateAB.transactionPool.drop 10 ∧
     (stateAB.transactionPool.length ≤ 10 →
       minedAB.transactions =
         (⟨"r", "System", "a", stateAB.miningReward, 7⟩ : Transaction) ::
           stateAB.transactionPool)) :=
  ⟨by decide, by decide, by decide,
   addBlock_construction_spec dgMiss stJson stateAB 7 "r" 1 gMiss (by decide)
     "a" wA [("b", wB)] (by decide) minedAB (by decide)⟩

/-- C8:  If mining is cancelled before sealing succeeds (the fuel of the
cooperative loop runs out, so `mineBlock` returns `null`), the candidate
block is discarded entirely: the chain is not extended, wallet balances are
unchanged (no settlement), the difficulty and reward settings are unchanged,
but the up-to-10 transactions already drained from the pool for that block
are lost (the remaining pool is the original pool with its first 10
entries removed). -/
theorem addBlock_cancelled_frame (digest : String → String)
    (stringify : List Transaction → String) (s : SimState) (now : Nat) (rid : String)
    (fuel : Nat) (lb : Block) (hlast : s.blockchain.getLast? = some lb)
    (hfail : (addBlock digest stringify s now rid fuel).2 = none) :
    (addBlock digest stringify s now rid fuel).1.blockchain = s.blockchain ∧
    (addBlock digest stringify s now rid fuel).1.wallets = s.wallets ∧
    (addBlock digest stringify s now rid fuel).1.transactionPool =
      s.transactionPool.drop 10 ∧
    (addBlock digest stringify s now rid fuel).1.difficulty = s.difficulty ∧
    (addBlock digest stringify s now rid fuel).1.miningReward = s.miningReward := by
  cases hm : mineBlock digest stringify s.difficulty
      (mkBlock (lb.index + 1) now ("Block " ++ toString (lb.index + 1)) lb.hash
        ((⟨rid, "System", minerAddress s, s.miningReward, now⟩ : Transaction) ::
          s.transactionPool.take 10)) fuel with
  | some mb =>
    rw [addBlock_success hlast hm] at hfail
    simp at hfail
  | none =>
    rw [addBlock_failure hlast hm]
    exact ⟨rfl, rfl, rfl, rfl, rfl⟩

/-- Witness for C8: at difficulty 3 the always-`"abc"` hasher never seals,
so mining with any finite fuel is cancelled and only the pool is drained. -/
theorem addBlock_cancelled_frame_witness :
    stateABHard.blockchain.getLast? = some gMiss ∧
    (addBlock dgMiss stJson stateABHard 0 "r" 2).2 = none ∧
    ((addBlock dgMiss stJson stateABHard 0 "r" 2).1.blockchain = stateABHard.blockchain ∧
     (addBlock dgMiss stJson stateABHard 0 "r" 2).1.wallets = stateABHard.wallets ∧
     (addBlock dgMiss stJson stateABHard 0 "r" 2).1.transactionPool =
       stateABHard.transactionPool.drop 10 ∧
     (addBlock dgMiss stJson stateABHard 0 "r" 2).1.difficulty = stateABHard.difficulty ∧
     (addBlock dgMiss stJson stateABHard 0 "r" 2).1.miningReward = stateABHard.miningReward) :=
  ⟨by decide, by decide,
   addBlock_cancelled_frame dgMiss stJson stateABHard 0 "r" 2 gMiss (by decide) (by decide)⟩

/-- C4:  Pool admission: under the simulator's wallet invariant of
non-negative balances, `addTransaction` fails with `UnknownWallet` when
`from` or `to` does not resolve to a wallet, with `InvalidAmount` when the
amount is non-positive, and with `InsufficientBalance` when the sender's
balance is below the amount; any failure leaves the whole state (pool and
wallets) untouched, and when all three checks pass the created transaction
is appended to the pool's tail and returned. -/
theorem addTransaction_spec (s : SimState) (fromA toA : String) (amount : ℚ)
    (id : String) (now : Nat) (hnn : NonNegBalances s.wallets) :
    ((findWallet fromA s.wallets = none ∨ findWallet toA s.wallets = none) →
      addTransaction s fromA toA amount id now = (.error .UnknownWallet, s)) ∧
    (∀ fw, findWallet fromA s.wallets = some fw → (findWallet toA s.wallets).isSome →
      amount ≤ 0 →
      addTransaction s fromA toA amount id now = (.error .InvalidAmount, s)) ∧
    (∀ fw, findWallet fromA s.wallets = some fw → (findWallet toA s.wallets).isSome →
      fw.balance < amount →
      addTransaction s fromA toA amount id now = (.error .InsufficientBalance, s)) ∧
    (∀ fw, findWallet fromA s.wallets = some fw → (findWallet toA s.wallets).isSome →
      0 < amount → amount ≤ fw.balance →
      addTransaction s fromA toA amount id now =
        (.ok ⟨id, fromA, toA, amount, now⟩,
         { s with transactionPool :=
            s.transactionPool ++ [⟨id, fromA, toA, amount, now⟩] })) ∧
    (∀ e, (addTransaction s fromA toA amount id now).1 = .error e →
      (addTransaction s fromA toA amount id now).2 = s) := by
  refine ⟨?_, ?_, ?_, ?_, ?_⟩
  · intro hun
    rcases hun with hun | hun
    · cases ht : findWallet toA s.wallets <;> simp [addTransaction, hun, ht]
    · cases hf : findWallet fromA s.wallets <;> simp [addTransaction, hf, hun]
  · intro fw hf ht ha
    obtain ⟨tw, ht'⟩ := Option.isSome_iff_exists.mp ht
    have hbal : 0 ≤ fw.balance := hnn _ (findWallet_mem hf)
    have hlt : ¬ fw.balance < amount := not_lt.mpr (le_trans ha hbal)
    simp [addTransaction, hf, ht', hlt, ha]
  · intro fw hf ht hlt
    obtain ⟨tw, ht'⟩ := Option.isSome_iff_exists.mp ht
    simp [addTransaction, hf, ht', hlt]
  · intro fw hf ht h0 hba
    obtain ⟨tw, ht'⟩ := Option.isSome_iff_exists.mp ht
    have h1 : ¬ fw.balance < amount := not_lt.mpr hba
    have h2 : ¬ amount ≤ 0 := not_le.mpr h0
    simp [addTransaction, hf, ht', h1, h2]
  · intro e he
    cases hf : findWallet fromA s.wallets with
    | none => cases ht : findWallet toA s.wallets <;> simp [addTransaction, hf, ht]
    | some fw =>
      cases ht : findWallet toA s.wallets with
      | none => simp [addTransaction, hf, ht]
      | some tw =>
        by_cases h1 : fw.balance < amount
        · simp [addTransaction, hf, ht, h1]
        · by_cases h2 : amount ≤ 0
          · simp [addTransaction, hf, ht, h1, h2]
          · simp [addTransaction, hf, ht, h1, h2] at he

/-- Witness for C4: a concrete admitted transfer of 30 from Alice (balance
100) to Bob. -/
theorem addTransaction_spec_witness :
    NonNegBalances stateAB.wallets ∧
    findWallet "a" stateAB.wallets = some wA ∧
    (findWallet "b" stateAB.wallets).isSome ∧ (0 : ℚ) < 30 ∧ (30 : ℚ) ≤ wA.balance ∧
    addTransaction stateAB "a" "b" 30 "t2" 1 =
      (.ok ⟨"t2", "a", "b", 30, 1⟩,
       { stateAB with transactionPool :=
          stateAB.transactionPool ++ [⟨"t2", "a", "b", 30, 1⟩] }) :=
  ⟨by decide, by decide, by decide, by decide, by decide,
   (addTransaction_spec stateAB "a" "b" 30 "t2" 1 (by decide)).2.2.2.1 wA
     (by decide) (by decide) (by decide) (by decide)⟩

/-- C7:  Settlement of a single transaction from a sealed block's batch:
a `"System"` (coinbase) transaction credits the recipient unconditionally,
with registry absence of the recipient tolerated as a no-op; a regular
transaction whose endpoints are registered is settled by debiting the
sender and crediting the recipient sequentially (atomically within the
single-threaded step) when the sender's balance at settlement time is at
least the amount, and is silently dropped with no balance change (and no
error — `applyTx` is total) otherwise. -/
theorem applyTx_settlement_spec (ws : List (String × Wallet)) (tx : Transaction) :
    (tx.fromAddr = "System" → ∀ tw, findWallet tx.toAddr ws = some tw →
      (findWallet tx.toAddr (applyTx ws tx)).map Wallet.balance =
        some (tw.balance + tx.amount) ∧
      ∀ x, x ≠ tx.toAddr → findWallet x (applyTx ws tx) = findWallet x ws) ∧
    (tx.fromAddr = "System" → findWallet tx.toAddr ws = none → applyTx ws tx = ws) ∧
    (tx.fromAddr ≠ "System" → ∀ fw tw, findWallet tx.fromAddr ws = some fw →
      findWallet tx.toAddr ws = some tw → tx.amount ≤ fw.balance →
      applyTx ws tx =
        setBal tx.toAddr (· + tx.amount) (setBal tx.fromAddr (· - tx.amount) ws) ∧
      (tx.fromAddr ≠ tx.toAddr →
        (findWallet tx.fromAddr (applyTx ws tx)).map Wallet.balance =
          some (fw.balance - tx.amount) ∧
        (findWallet tx.toAddr (applyTx ws tx)).map Wallet.balance =
          some (tw.balance + tx.amount)) ∧
      (∀ x, x ≠ tx.fromAddr → x ≠ tx.toAddr →
        findWallet x (applyTx ws tx) = findWallet x ws)) ∧
    (tx.fromAddr ≠ "System" → ∀ fw, findWallet tx.fromAddr ws = some fw →
      fw.balance < tx.amount → applyTx ws tx = ws) := by
  refine ⟨?_, ?_, ?_, ?_⟩
  · intro hsys tw hto
    have heq : applyTx ws tx = setBal tx.toAddr (· + tx.amount) ws := by
      simp [applyTx, hsys, hto]
    constructor
    · rw [heq, findWallet_setBal_self, hto]
      rfl
    · intro x hx
      rw [heq, findWallet_setBal_ne hx]
  · intro hsys hto
    simp [applyTx, hsys, hto]
  · intro hsys fw tw hf ht hbal
    have heq : applyTx ws tx =
        setBal tx.toAddr (· + tx.amount) (setBal tx.fromAddr (· - tx.amount) ws) := by
      simp [applyTx, hsys, hf, ht, hbal]
    refine ⟨heq, ?_, ?_⟩
    · intro hne
      constructor
      · rw [heq, findWallet_setBal_ne hne, findWallet_setBal_self, hf]
        rfl
      · rw [heq, findWallet_setBal_self, findWallet_setBal_ne (Ne.symm hne), ht]
        rfl
    · intro x hxf hxt
      rw [heq, findWallet_setBal_ne hxt, findWallet_setBal_ne hxf]
  · intro hsys fw hf hlt
    have hnle : ¬ tx.amount ≤ fw.balance := not_le.mpr hlt
    cases ht : findWallet tx.toAddr ws with
    | none => simp [applyTx, hsys, hf, ht]
    | some tw => simp [applyTx, hsys, hf, ht, hnle]

/-- Witness for C7: the coinbase reward `txReward` credits Bob by 10 and
leaves Alice's entry untouched. -/
theorem applyTx_settlement_spec_witness :
    txReward.fromAddr = "System" ∧ findWallet "b" regAB = some wB ∧
    (findWallet "b" (applyTx regAB txReward)).map Wallet.balance =
      some (wB.balance + txReward.amount) ∧
    findWallet "a" (applyTx regAB txReward) = findWallet "a" regAB :=
  ⟨rfl, by decide,
   ((applyTx_settlement_spec regAB txReward).1 rfl wB (by decide)).1,
   ((applyTx_settlement_spec regAB txReward).1 rfl wB (by decide)).2 "a" (by decide)⟩

/-- Helper: `addTransaction` either rejects (leaving the state untouched) or admits
a positive-amount transaction by appending it to the pool. -/
theorem addTransaction_snd (s : SimState) (fromA toA : String) (amount : ℚ)
    (id : String) (now : Nat) :
    (addTransaction s fromA toA amount id now).2 = s ∨
    (0 < amount ∧ (addTransaction s fromA toA amount id now).2 =
      { s with transactionPool :=
          s.transactionPool ++ [⟨id, fromA, toA, amount, now⟩] }) := by
  cases hf : findWallet fromA s.wallets with
  | none => cases ht : findWallet toA s.wallets <;> left <;> simp [addTransaction, hf, ht]
  | some fw =>
    cases ht : findWallet toA s.wallets with
    | none => left; simp [addTransaction, hf, ht]
    | some tw =>
      by_cases h1 : fw.balance < amount
      · left; simp [addTransaction, hf, ht, h1]
      · by_cases h2 : amount ≤ 0
        · left; simp [addTransaction, hf, ht, h1, h2]
        · right; exact ⟨not_le.mp h2, by simp [addTransaction, hf, ht, h1, h2]⟩

/-- C3 counterexample:  A settled self-transfer (admissible at the public
interface, see C10) leaves the recipient's balance unchanged instead of
increasing it by the amount: wallet `"a"` holds 5, the transaction sends 3
from `"a"` to `"a"`, its settlement guard passes, yet the final balance is 5,
not 5 + 3. -/
theorem settlement_self_transfer_counterexample :
    txSelf.fromAddr ≠ "System" ∧
    findWallet txSelf.fromAddr regSelf = some wSelf ∧
    txSelf.toAddr = txSelf.fromAddr ∧
    txSelf.amount ≤ wSelf.balance ∧
    (findWallet txSelf.toAddr (processTransactions regSelf [txSelf])).map Wallet.balance
      = some wSelf.balance ∧
    ¬ (findWallet txSelf.toAddr (processTransactions regSelf [txSelf])).map Wallet.balance
      = some (wSelf.balance + txSelf.amount) := by
  have hstep : applyTx regSelf txSelf =
      setBal "a" (· + 3) (setBal "a" (· - 3) regSelf) := by
    have hne : ¬ (("a" : String) = "System") := by decide
    have hle : (3 : ℚ) ≤ 5 := by decide
    simp [applyTx, txSelf, regSelf, wSelf, findWallet, hne, hle]
  have hid : processTransactions regSelf [txSelf] = regSelf := by
    show applyTx regSelf txSelf = regSelf
    rw [hstep, setBal_setBal_self]
    exact setBal_eq_self (fun x => by ring) _ _
  have h5 : (findWallet "a" regSelf).map Wallet.balance = some 5 := by decide
  rw [hid]
  refine ⟨by decide, by decide, by decide, by decide, by decide, ?_⟩
  intro hcontra
  simp only [txSelf, wSelf] at hcontra
  rw [h5] at hcontra
  simp only [Option.some.injEq] at hcontra
  linarith

/-- C3 (amended):  Settlement is balance-conserving for peer-to-peer
transactions *between distinct wallets*: for every successfully settled
non-coinbase transaction whose sender and recipient differ, the recipient's
balance increases by exactly the amount and the sender's decreases by exactly
the amount (a self-transfer leaves the balance unchanged); and for every
produced block (given a registry with at least one wallet, and a pool free of
the reserved `"System"` sender, as admission guarantees), the total of all
wallet balances increases by exactly the mining reward — the block's single
coinbase emission. -/
theorem settlement_conservation_spec (digest : String → String)
    (stringify : List Transaction → String) :
    (∀ (ws : List (String × Wallet)) (tx : Transaction) (fw tw : Wallet),
      tx.fromAddr ≠ "System" → tx.fromAddr ≠ tx.toAddr →
      findWallet tx.fromAddr ws = some fw → findWallet tx.toAddr ws = some tw →
      tx.amount ≤ fw.balance →
      (findWallet tx.fromAddr (applyTx ws tx)).map Wallet.balance =
        some (fw.balance - tx.amount) ∧
      (findWallet tx.toAddr (applyTx ws tx)).map Wallet.balance =
        some (tw.balance + tx.amount)) ∧
    (∀ (s : SimState) (now : Nat) (rid : String) (fuel : Nat) (b : Block),
      (∀ tx ∈ s.transactionPool, tx.fromAddr ≠ "System") →
      s.wallets ≠ [] →
      (addBlock digest stringify s now rid fuel).2 = some b →
      totalBalance (addBlock digest stringify s now rid fuel).1.wallets
        = totalBalance s.wallets + s.miningReward) := by
  constructor
  · intro ws tx fw tw hsys hne hf ht hbal
    have heq : applyTx ws tx =
        setBal tx.toAddr (· + tx.amount) (setBal tx.fromAddr (· - tx.amount) ws) := by
      simp [applyTx, hsys, hf, ht, hbal]
    constructor
    · rw [heq, findWallet_setBal_ne hne, findWallet_setBal_self, hf]
      rfl
    · rw [heq, findWallet_setBal_self, findWallet_setBal_ne (Ne.symm hne), ht]
      rfl
  · intro s now rid fuel b hpool hwne hsucc
    cases hlast : s.blockchain.getLast? with
    | none =>
      have heq : addBlock digest stringify s now rid fuel =
          ({ s with blockchain := [createGenesisBlock digest stringify now] }, none) := by
        simp [addBlock, hlast]
      rw [heq] at hsucc
      simp at hsucc
    | some lb =>
      cases hm : mineBlock digest stringify s.difficulty
          (mkBlock (lb.index + 1) now ("Block " ++ toString (lb.index + 1)) lb.hash
            ((⟨rid, "System", minerAddress s, s.miningReward, now⟩ : Transaction) ::
              s.transactionPool.take 10)) fuel with
      | none =>
        rw [addBlock_failure hlast hm] at hsucc
        simp at hsucc
      | some mb =>
        rw [addBlock_success hlast hm]
        show totalBalance (processTransactions s.wallets
            ((⟨rid, "System", minerAddress s, s.miningReward, now⟩ : Transaction) ::
              s.transactionPool.take 10)) = totalBalance s.wallets + s.miningReward
        obtain ⟨a0, w0, rest, hw⟩ : ∃ a0 w0 rest, s.wallets = (a0, w0) :: rest := by
          cases hws : s.wallets with
          | nil => exact absurd hws hwne
          | cons p r => obtain ⟨p1, p2⟩ := p; exact ⟨p1, p2, r, rfl⟩
        have hma : minerAddress s = a0 := by simp [minerAddress, hw]
        have hfind : findWallet (minerAddress s) s.wallets = some w0 := by
          rw [hma, hw]; simp [findWallet]
        have hstep : processTransactions s.wallets
            ((⟨rid, "System", minerAddress s, s.miningReward, now⟩ : Transaction) ::
              s.transactionPool.take 10)
            = processTransactions
                (applyTx s.wallets ⟨rid, "System", minerAddress s, s.miningReward, now⟩)
                (s.transactionPool.take 10) := rfl
        rw [hstep, totalBalance_processTransactions_of_ne_system _ _
          (fun tx htx => hpool tx (List.take_subset 10 s.transactionPool htx))]
        exact totalBalance_applyTx_system rfl hfind

/-- Witness for C3 (amended): the concrete settled transfer of 30 between
the distinct wallets Alice (balance 100) and Bob (balance 0). -/
theorem settlement_conservation_spec_witness :
    txAB.fromAddr ≠ "System" ∧ txAB.fromAddr ≠ txAB.toAddr ∧
    findWallet txAB.fromAddr regAB = some wA ∧
    findWallet txAB.toAddr regAB = some wB ∧ txAB.amount ≤ wA.balance ∧
    ((findWallet txAB.fromAddr (applyTx regAB txAB)).map Wallet.balance =
      some (wA.balance - txAB.amount) ∧
     (findWallet txAB.toAddr (applyTx regAB txAB)).map Wallet.balance =
      some (wB.balance + txAB.amount)) :=
  ⟨by decide, by decide, by decide, by decide, by decide,
   (settlement_conservation_spec dgMiss stJson).1 regAB txAB wA wB
     (by decide) (by decide) (by decide) (by decide) (by decide)⟩

/-- C9:  Non-negative balance invariant: assuming every wallet is created
with a non-negative initial balance, each core operation — pool admission,
block production (with its settlement), and wallet creation — preserves the
simulator invariant `Inv`, whose first component is that every wallet's
balance is `≥ 0` (the other components, non-negative pool amounts and a
non-negative reward, are themselves maintained by the operations and are
what settlement needs to keep balances non-negative). -/
theorem core_ops_preserve_invariants (digest : String → String)
    (stringify : List Transaction → String) (s : SimState) (hInv : Inv s) :
    (∀ fromA toA amount id now, Inv (addTransaction s fromA toA amount id now).2) ∧
    (∀ address label init now, 0 ≤ init → Inv (createWallet s address label init now).1) ∧
    (∀ now rid fuel, Inv (addBlock digest stringify s now rid fuel).1) := by
  obtain ⟨hw, hp, hr⟩ := hInv
  refine ⟨?_, ?_, ?_⟩
  · intro fromA toA amount id now
    rcases addTransaction_snd s fromA toA amount id now with heq | ⟨hpos, heq⟩
    · rw [heq]; exact ⟨hw, hp, hr⟩
    · rw [heq]
      refine ⟨hw, ?_, hr⟩
      intro tx htx
      rcases List.mem_append.mp htx with h | h
      · exact hp tx h
      · rcases List.mem_singleton.mp h with rfl
        exact hpos.le
  · intro address label init now h0
    refine ⟨?_, hp, hr⟩
    intro p hpmem
    rcases mem_mapSet hpmem with h | h
    · subst h; exact h0
    · exact hw p h
  · intro now rid fuel
    cases hlast : s.blockchain.getLast? with
    | none =>
      have heq : addBlock digest stringify s now rid fuel =
          ({ s with blockchain := [createGenesisBlock digest stringify now] }, none) := by
        simp [addBlock, hlast]
      rw [heq]
      exact ⟨hw, hp, hr⟩
    | some lb =>
      cases hm : mineBlock digest stringify s.difficulty
          (mkBlock (lb.index + 1) now ("Block " ++ toString (lb.index + 1)) lb.hash
            ((⟨rid, "System", minerAddress s, s.miningReward, now⟩ : Transaction) ::
              s.transactionPool.take 10)) fuel with
      | none =>
        rw [addBlock_failure hlast hm]
        refine ⟨hw, ?_, hr⟩
        intro tx htx
        exact hp tx (List.drop_subset 10 s.transactionPool htx)
      | some mb =>
        rw [addBlock_success hlast hm]
        refine ⟨?_, ?_, hr⟩
        · refine nonNeg_processTransactions _ _ hw ?_
          intro tx htx
          rcases List.mem_cons.mp htx with h | h
          · rw [h]; exact hr
          · exact hp tx (List.take_subset 10 s.transactionPool h)
        · intro tx htx
          exact hp tx (List.drop_subset 10 s.transactionPool htx)

/-- Witness for C9 on the concrete two-wallet state. -/
theorem core_ops_preserve_invariants_witness :
    Inv stateABHard ∧ (0 : ℚ) ≤ 5 ∧
    Inv (addTransaction stateABHard "a" "b" 30 "t2" 1).2 ∧
    Inv (createWallet stateABHard "c" "C" 5 0).1 ∧
    Inv (addBlock dgMiss stJson stateABHard 0 "r" 2).1 :=
  ⟨by decide, by decide,
   (core_ops_preserve_invariants dgMiss stJson stateABHard (by decide)).1 "a" "b" 30 "t2" 1,
   (core_ops_preserve_invariants dgMiss stJson stateABHard (by decide)).2.1 "c" "C" 5 0
     (by decide),
   (core_ops_preserve_invariants dgMiss stJson stateABHard (by decide)).2.2 0 "r" 2⟩

/-- C10:  Self-transfer at the public interface: for every registered
wallet `w` (whose address is not the reserved `"System"` sentinel — generated
addresses always start with `"bc1q"`) and every amount with
`0 < amount ≤ balance`, `addTransaction w w amount` is accepted into the
pool (there is no sender-differs-from-recipient check), and settling that
transaction leaves the registry — in particular `w`'s balance — exactly
unchanged: the recipient's balance does not increase by the amount. -/
theorem self_transfer_spec (s : SimState) (w : String) (wa : Wallet) (amount : ℚ)
    (id : String) (now : Nat) (hsys : w ≠ "System")
    (hw : findWallet w s.wallets = some wa) (h0 : 0 < amount)
    (hb : amount ≤ wa.balance) :
    (addTransaction s w w amount id now).1 = .ok ⟨id, w, w, amount, now⟩ ∧
    (addTransaction s w w amount id now).2 =
      { s with transactionPool := s.transactionPool ++ [⟨id, w, w, amount, now⟩] } ∧
    (∀ (ws : List (String × Wallet)) (fw : Wallet), findWallet w ws = some fw →
      amount ≤ fw.balance →
      applyTx ws ⟨id, w, w, amount, now⟩ = ws) := by
  have h1 : ¬ wa.balance < amount := not_lt.mpr hb
  have h2 : ¬ amount ≤ 0 := not_le.mpr h0
  refine ⟨by simp [addTransaction, hw, h1, h2], by simp [addTransaction, hw, h1, h2], ?_⟩
  intro ws fw hfw hbal
  have heq : applyTx ws ⟨id, w, w, amount, now⟩ =
      setBal w (· + amount) (setBal w (· - amount) ws) := by
    simp [applyTx, hsys, hfw, hbal]
  rw [heq, setBal_setBal_self]
  exact setBal_eq_self (fun x => by ring) w ws

/-- Witness for C10: wallet `"a"` with balance 5 sends 3 to itself; the
transaction is admitted and its settlement leaves the registry unchanged. -/
theorem self_transfer_spec_witness :
    ("a" : String) ≠ "System" ∧ findWallet "a" stateSelf.wallets = some wSelf ∧
    (0 : ℚ) < 3 ∧ (3 : ℚ) ≤ wSelf.balance ∧
    (addTransaction stateSelf "a" "a" 3 "t" 0).1 = .ok txSelf ∧
    applyTx regSelf txSelf = regSelf :=
  ⟨by decide, by decide, by decide, by decide,
   (self_transfer_spec stateSelf "a" wSelf 3 "t" 0 (by decide) (by decide) (by decide)
     (by decide)).1,
   (self_transfer_spec stateSelf "a" wSelf 3 "t" 0 (by decide) (by decide) (by decide)
     (by decide)).2.2 regSelf wSelf (by decide) (by decide)⟩

end BlockchainSim
